import Mathlib

/-!
Verification of the `fastalloc` typed object-pool allocator.

The development is a shallow embedding of the crate's core: the three
slot trackers (`src/allocator/stack.rs`, `freelist.rs`, `bitmap.rs`),
the growth strategies (`src/config/growth_strategy.rs`), the fixed pool
(`src/pool/fixed.rs`) and the growing pool (`src/pool/growing.rs`).

Modelling conventions:
- Rust `usize`/`u64` values are `Nat`; wrapping or saturating behaviour is
  modelled explicitly at the places where it matters and noted in comments.
- A Rust `Vec` used as a stack is modelled by a Lean list whose HEAD is the
  vector's LAST element (the stack top), so `Vec::push`/`Vec::pop` become
  cons / head-tail.
- Code guarded by `cfg(debug_assertions)` does not exist in release builds.
  The release-build state and operations carry no shadow bitmap; the debug
  build's `free` (its two `debug_assert!`s plus the shadow-bitmap update) is
  modelled separately as a `freeDebug` operation returning `Except String`.
- `MaybeUninit<T>` slots are modelled as `Option T` (`none` = uninitialized
  or dropped in place).
- `f64` arithmetic in the exponential growth strategy is modelled by exact
  rational arithmetic; `as usize` truncation of a non-negative float and the
  clamp of a negative float to `0` are both `Nat.floor`.
-/

namespace Fastalloc

/-- Embedding of `Error` from `src/error.rs` (payload fields kept verbatim;
static message strings become `String`). -/
inductive Error where
  | poolExhausted (capacity allocated : Nat)
  | invalidConfiguration (message : String)
  | uninitializedPool
  | invalidAlignment (alignment : Nat)
  | maxCapacityExceeded (current requested max : Nat)
  | invalidHandle
  | doubleFree
  | allocationFailed
  | custom (message : String)
  deriving Repr, DecidableEq

/-! ## Stack tracker — `src/allocator/stack.rs` -/

/-- Release-build `StackAllocator`: a LIFO of free indices plus the capacity.
The `cfg(debug_assertions)` shadow `allocated_bitmap` is absent in release
builds and is threaded separately through `StackAllocator.freeDebug`. -/
structure StackAllocator where
  free_stack : List Nat
  capacity : Nat
  deriving Repr, DecidableEq

namespace StackAllocator

/-- Rust `StackAllocator::new`: `(0..capacity).rev().collect()` is the vector
`[capacity-1, …, 1, 0]`, whose top (last element) is `0`; in head-is-top form
this is `List.range capacity`. -/
def new (capacity : Nat) : StackAllocator :=
  { free_stack := List.range capacity, capacity := capacity }

/-- Rust `StackAllocator::allocate` (release build): pop the top of the free
stack; `None` when the stack is empty. -/
def allocate (s : StackAllocator) : Option Nat × StackAllocator :=
  match s.free_stack with
  | [] => (none, s)
  | i :: rest => (some i, { s with free_stack := rest })

/-- Rust `StackAllocator::free` (release build): both `debug_assert!`s are
compiled out, so the index is pushed unconditionally. -/
def free (s : StackAllocator) (index : Nat) : StackAllocator :=
  { s with free_stack := index :: s.free_stack }

/-- Rust `StackAllocator::with_additional_capacity`: capacity grows by
`additional` and the new indices `old..new` are pushed in reverse, so the
lowest new index ends on top. -/
def with_additional_capacity (s : StackAllocator) (additional : Nat) : StackAllocator :=
  { s with capacity := s.capacity + additional,
           free_stack := List.range' s.capacity additional ++ s.free_stack }

/-- Debug-build `StackAllocator::free`: the two `debug_assert!`s in order
(bounds check, then shadow-bitmap double-free check), then the bit clear and
the push. The debug build's `allocated_bitmap` (a `Vec<u64>`, one bit per
slot) is passed alongside the release-build state. A failing assertion is an
`Except.error` carrying the assertion's message. -/
def freeDebug (s : StackAllocator) (allocated_bitmap : List Nat) (index : Nat) :
    Except String (StackAllocator × List Nat) :=
  if index < s.capacity then
    let word_idx := index / 64
    let bit_pos := index % 64
    let word := allocated_bitmap.getD word_idx 0
    if word &&& (1 <<< bit_pos) = 0 then
      .error "double free detected"
    else
      .ok ({ s with free_stack := index :: s.free_stack },
           allocated_bitmap.set word_idx (word &&& ((2 ^ 64 - 1) ^^^ (1 <<< bit_pos))))
  else
    .error "index out of bounds"

/-- Available slots: the length of the free stack. -/
def available (s : StackAllocator) : Nat :=
  s.free_stack.length

end StackAllocator

/-! ## Free-list tracker — `src/allocator/freelist.rs` -/

/-- Release-build `FreeListAllocator`: an (operationally LIFO) `Vec` of free
indices plus the capacity, again with the head of the Lean list modelling the
top (last element) of the Rust `Vec`. -/
structure FreeListAllocator where
  free_list : List Nat
  capacity : Nat
  deriving Repr, DecidableEq

namespace FreeListAllocator

/-- Rust `FreeListAllocator::new`: `(0..capacity).collect()` is the vector
`[0, 1, …, capacity-1]`, whose top (last element) is `capacity-1`; in
head-is-top form this is `(List.range capacity).reverse`. -/
def new (capacity : Nat) : FreeListAllocator :=
  { free_list := (List.range capacity).reverse, capacity := capacity }

/-- Rust `FreeListAllocator::allocate` (release build): `free_list.pop()`. -/
def allocate (s : FreeListAllocator) : Option Nat × FreeListAllocator :=
  match s.free_list with
  | [] => (none, s)
  | i :: rest => (some i, { s with free_list := rest })

/-- Rust `FreeListAllocator::free` (release build): the `debug_assert!`s are
compiled out, so the index is pushed unconditionally. -/
def free (s : FreeListAllocator) (index : Nat) : FreeListAllocator :=
  { s with free_list := index :: s.free_list }

/-- Rust `FreeListAllocator::extend`: capacity grows by `additional` and
`free_list.extend(old_capacity..new_capacity)` appends the ascending range at
the vector's end, i.e. prepends its reverse in head-is-top form. -/
def extend (s : FreeListAllocator) (additional : Nat) : FreeListAllocator :=
  { s with capacity := s.capacity + additional,
           free_list := (List.range' s.capacity additional).reverse ++ s.free_list }

/-- Debug-build `FreeListAllocator::free`: identical check structure to the
stack tracker (bounds `debug_assert!`, shadow-bitmap double-free
`debug_assert!`, bit clear, push). -/
def freeDebug (s : FreeListAllocator) (allocated_bitmap : List Nat) (index : Nat) :
    Except String (FreeListAllocator × List Nat) :=
  if index < s.capacity then
    let word_idx := index / 64
    let bit_pos := index % 64
    let word := allocated_bitmap.getD word_idx 0
    if word &&& (1 <<< bit_pos) = 0 then
      .error "double free detected"
    else
      .ok ({ s with free_list := index :: s.free_list },
           allocated_bitmap.set word_idx (word &&& ((2 ^ 64 - 1) ^^^ (1 <<< bit_pos))))
  else
    .error "index out of bounds"

/-- Available slots: the length of the free list. -/
def available (s : FreeListAllocator) : Nat :=
  s.free_list.length

end FreeListAllocator

/-! ## Bitmap tracker — `src/allocator/bitmap.rs` -/

/-- `BitmapAllocator`: one bit per slot (1 = allocated, 0 = free), packed into
`u64` words, plus an allocated counter and a word-granularity scan hint.
Words are `Nat` values below `2 ^ 64`. -/
structure BitmapAllocator where
  bitmap : List Nat
  capacity : Nat
  allocated : Nat
  next_free_hint : Nat
  deriving Repr, DecidableEq

namespace BitmapAllocator

/-- `BitmapAllocator::BITS_PER_WORD`. -/
def BITS_PER_WORD : Nat := 64

/-- The all-ones `u64` word, Rust `u64::MAX`. -/
def U64_MAX : Nat := 2 ^ 64 - 1

/-- Rust `BitmapAllocator::new`: `(capacity + 63) / 64` zero words. -/
def new (capacity : Nat) : BitmapAllocator :=
  let num_words := (capacity + BITS_PER_WORD - 1) / BITS_PER_WORD
  { bitmap := List.replicate num_words 0,
    capacity := capacity, allocated := 0, next_free_hint := 0 }

/-- Rust `BitmapAllocator::word_and_bit`. -/
def word_and_bit (index : Nat) : Nat × Nat :=
  (index / BITS_PER_WORD, index % BITS_PER_WORD)

/-- Rust `BitmapAllocator::is_allocated`: `bitmap[word] & (1 << bit) != 0`.
In-contract calls have `word` in bounds; out-of-bounds `Vec` indexing (a Rust
panic) is modelled by `getD _ 0`. -/
def is_allocated (a : BitmapAllocator) (index : Nat) : Bool :=
  (a.bitmap.getD (index / BITS_PER_WORD) 0) &&& (1 <<< (index % BITS_PER_WORD)) != 0

/-- Rust `BitmapAllocator::mark_allocated`: `bitmap[word] |= 1 << bit`. -/
def mark_allocated (a : BitmapAllocator) (index : Nat) : BitmapAllocator :=
  let word_idx := index / BITS_PER_WORD
  let bit_pos := index % BITS_PER_WORD
  { a with bitmap := a.bitmap.set word_idx ((a.bitmap.getD word_idx 0) ||| (1 <<< bit_pos)) }

/-- Rust `BitmapAllocator::mark_free`: `bitmap[word] &= !(1 << bit)`; the `u64`
complement of the single-bit mask is `U64_MAX ^^^ (1 <<< bit_pos)`. -/
def mark_free (a : BitmapAllocator) (index : Nat) : BitmapAllocator :=
  let word_idx := index / BITS_PER_WORD
  let bit_pos := index % BITS_PER_WORD
  { a with bitmap := a.bitmap.set word_idx ((a.bitmap.getD word_idx 0) &&& (U64_MAX ^^^ (1 <<< bit_pos))) }

/-- Rust `u64::trailing_zeros` restricted to 64 bits: the position of the lowest
set bit, or `64` when no bit among `0..64` is set (which for a `u64` value means
the value is `0`). `List.findIdx` returns the list length when no element
matches, giving exactly that behaviour over `List.range 64`. -/
def trailingZeros (w : Nat) : Nat :=
  (List.range 64).findIdx (fun i => w.testBit i)

/-- The loop body of Rust `BitmapAllocator::find_free_slot`, iterating over the
offsets `0..num_words`: probe word `(next_free_hint + offset) % num_words`; in
the first word that is not all ones take its lowest zero bit
(`(!word).trailing_zeros()`); accept the resulting index only if it is below
capacity, otherwise keep scanning. Returns the word index (the new hint) and
the slot index. -/
def findFreeLoop (a : BitmapAllocator) (num_words : Nat) : List Nat → Option (Nat × Nat)
  | [] => none
  | offset :: rest =>
    let word_idx := (a.next_free_hint + offset) % num_words
    let word := a.bitmap.getD word_idx 0
    if word ≠ U64_MAX then
      let bit_pos := trailingZeros (U64_MAX ^^^ word)
      let index := word_idx * BITS_PER_WORD + bit_pos
      if index < a.capacity then some (word_idx, index)
      else findFreeLoop a num_words rest
    else findFreeLoop a num_words rest

/-- Rust `BitmapAllocator::find_free_slot`: scan all words starting at the hint
(wrapping), and on success record the found word as the new hint. -/
def find_free_slot (a : BitmapAllocator) : Option Nat × BitmapAllocator :=
  let num_words := a.bitmap.length
  match findFreeLoop a num_words (List.range num_words) with
  | some (word_idx, index) => (some index, { a with next_free_hint := word_idx })
  | none => (none, a)

/-- Rust `BitmapAllocator::allocate`: refuse when full, otherwise find a free
slot, mark it and bump the counter. -/
def allocate (a : BitmapAllocator) : Option Nat × BitmapAllocator :=
  if a.allocated ≥ a.capacity then (none, a)
  else
    match a.find_free_slot with
    | (none, a1) => (none, a1)
    | (some index, a1) =>
      (some index, { a1.mark_allocated index with allocated := a1.allocated + 1 })

/-- Rust `BitmapAllocator::free` (release build): the `debug_assert!`s are
compiled out; clear the bit, decrement the counter, move the hint to the word
containing the freed bit. Rust `allocated -= 1` wraps on underflow in release
builds while `Nat` subtraction truncates at `0`; the two agree whenever
`allocated ≥ 1`, which holds at every in-contract call. -/
def free (a : BitmapAllocator) (index : Nat) : BitmapAllocator :=
  { a.mark_free index with
    allocated := a.allocated - 1,
    next_free_hint := index / BITS_PER_WORD }

/-- Debug-build `BitmapAllocator::free`: the two `debug_assert!`s in order
(bounds check, then `is_allocated` double-free check) followed by the
release-build body. -/
def freeDebug (a : BitmapAllocator) (index : Nat) : Except String BitmapAllocator :=
  if index < a.capacity then
    if a.is_allocated index then .ok (a.free index)
    else .error "double free detected"
  else
    .error "index out of bounds"

/-- Rust `BitmapAllocator::extend`: bump the capacity, append fresh zero words
when the word count grows. -/
def extend (a : BitmapAllocator) (additional : Nat) : BitmapAllocator :=
  let capacity := a.capacity + additional
  let new_num_words := (capacity + BITS_PER_WORD - 1) / BITS_PER_WORD
  let old_num_words := a.bitmap.length
  { a with
    capacity := capacity,
    bitmap := if new_num_words > old_num_words
      then a.bitmap ++ List.replicate (new_num_words - old_num_words) 0
      else a.bitmap }

/-- Rust `BitmapAllocator::available`: `capacity - allocated`. -/
def available (a : BitmapAllocator) : Nat :=
  a.capacity - a.allocated

end BitmapAllocator

/-! ## Growth strategies — `src/config/growth_strategy.rs` -/

/-- Embedding of `GrowthStrategy`. The `f64` factor of the exponential variant
is modelled by an exact rational; the boxed custom function becomes a plain
Lean function. -/
inductive GrowthStrategy where
  | none
  | linear (amount : Nat)
  | exponential (factor : ℚ)
  | custom (compute : Nat → Nat)

namespace GrowthStrategy

/-- Rust `GrowthStrategy::compute_growth`. The `none`, `linear` and `custom`
arms are exact. The exponential arm is an exact-rational IDEALIZATION of
`(current_capacity as f64 * factor) as usize`: `Nat.floor` captures the
truncation toward zero and the clamp of negative values to `0`, and
`growth.saturating_sub(current).max(1)` is `Nat` subtraction followed by
`max _ 1`, but two aspects of the `f64` computation are NOT modelled: IEEE
rounding of the conversion and product (for example at capacity `2^53 + 1`
with factor `2.0` the program computes growth `2^53 - 1` while the exact
formula gives `2^53 + 1`), and the `usize::MAX` saturation of the
float-to-int cast (for example at capacity `1` with factor `1e100`, which the
config builder accepts, the program computes `usize::MAX - 1`). No claim
about the exponential formula is therefore settled against this arm; the
pool-level theorems below use `compute_growth` only as an opaque delta,
uniformly in the strategy, so this idealization does not reach them. -/
def compute_growth (s : GrowthStrategy) (current_capacity : Nat) : Nat :=
  match s with
  | .none => 0
  | .linear amount => amount
  | .exponential factor =>
    let growth := ⌊(current_capacity : ℚ) * factor⌋₊
    max (growth - current_capacity) 1
  | .custom compute => compute current_capacity

/-- Rust `GrowthStrategy::allows_growth`. -/
def allows_growth (s : GrowthStrategy) : Bool :=
  match s with
  | .none => false
  | _ => true

end GrowthStrategy

/-! ## Growing pool — `src/pool/growing.rs` -/

/-- Cumulative sums of a list of chunk lengths: `cumulativeSums [a, b, c] =
[a, a+b, a+b+c]`. This is the shape of the pool's `chunk_boundaries` field. -/
def cumulativeSums : List Nat → List Nat
  | [] => []
  | a :: rest => a :: (cumulativeSums rest).map (a + ·)

/-- Model of Rust `<[usize]>::binary_search` by its documented contract on the
strictly-sorted slices the pool uses it on: `Except.ok i` when the target sits
at position `i`, otherwise `Except.error` with the insertion point (the number
of elements below the target). -/
def binarySearch (xs : List Nat) (target : Nat) : Except Nat Nat :=
  if xs.contains target then .ok (xs.indexOf target)
  else .error (xs.countP (fun x => decide (x < target)))

/-- The `match` on the binary-search result in Rust
`GrowingPool::compute_chunk_location`: both the found position (`Ok`) and the
insertion point (`Err`) are used as the chunk index. -/
def chunkSearchIdx (boundaries : List Nat) (target : Nat) : Nat :=
  match binarySearch boundaries target with
  | .ok idx => idx
  | .error idx => idx

/-- The chunk lookup of Rust `GrowingPool::compute_chunk_location`, as a
function of the `chunk_boundaries` list: binary-search for `index + 1`, take
the matching or insertion position as the chunk index, and subtract the
previous boundary (if any) for the offset. The Rust `boundaries[chunk_idx - 1]`
indexing is in bounds at every in-contract call; it is modelled by `getD`. -/
def computeChunkLocation (boundaries : List Nat) (index : Nat) : Nat × Nat :=
  let chunk_idx := chunkSearchIdx boundaries (index + 1)
  let offset := if chunk_idx = 0 then index else index - boundaries.getD (chunk_idx - 1) 0
  (chunk_idx, offset)

/-- The linear chunk scan inside Rust `GrowingPool::allocate`: walk the chunks,
keeping `remaining = index` minus the lengths of the chunks already passed;
write into the first chunk with `remaining < chunk.len()`. Returns the
`(chunk, offset)` pair that scan writes to, or `none` when the loop falls
through (the `panic!` branch of the Rust code). Chunks are represented by
their lengths; the claims about the growing pool concern layout, not slot
contents. -/
def linearScanLocation : List Nat → Nat → Option (Nat × Nat)
  | [], _ => none
  | len :: rest, remaining =>
    if remaining < len then some (0, remaining)
    else (linearScanLocation rest (remaining - len)).map (fun co => (co.1 + 1, co.2))

/-- `GrowingPool` state (`src/pool/growing.rs`): the storage chunks (each
modelled by its length — slot contents are `MaybeUninit` and unobserved by the
layout claims), the free-list tracker, the capacity cell, the cached chunk
boundaries, and the configuration fields the pool reads (growth strategy and
optional maximum capacity). -/
structure GrowingPool where
  storage : List Nat
  allocator : FreeListAllocator
  capacity : Nat
  chunk_boundaries : List Nat
  growth_strategy : GrowthStrategy
  max_capacity : Option Nat

namespace GrowingPool

/-- Rust `GrowingPool::with_config`: one initial chunk of `config.capacity()`
slots, a fresh free-list tracker, and boundaries `[capacity]`. -/
def with_config (capacity : Nat) (strategy : GrowthStrategy) (max_capacity : Option Nat) :
    GrowingPool :=
  { storage := [capacity],
    allocator := FreeListAllocator.new capacity,
    capacity := capacity,
    chunk_boundaries := [capacity],
    growth_strategy := strategy,
    max_capacity := max_capacity }

/-- Rust `GrowingPool::compute_chunk_location` on the pool's cached boundaries. -/
def compute_chunk_location (p : GrowingPool) (index : Nat) : Nat × Nat :=
  computeChunkLocation p.chunk_boundaries index

/-- Rust `GrowingPool::available`. -/
def available (p : GrowingPool) : Nat :=
  p.allocator.available

/-- Rust `GrowingPool::grow`: compute the growth amount; `0` fails with
`PoolExhausted`; exceeding a configured maximum fails with
`MaxCapacityExceeded`; otherwise push a new chunk, extend the tracker, bump
the capacity and append the new boundary. All mutations happen after the two
error returns, so the error cases leave the pool untouched. -/
def grow (p : GrowingPool) : Except Error GrowingPool :=
  let growth_amount := p.growth_strategy.compute_growth p.capacity
  if growth_amount = 0 then
    .error (.poolExhausted p.capacity (p.capacity - p.allocator.available))
  else
    let current_capacity := p.capacity
    let new_capacity := current_capacity + growth_amount
    match p.max_capacity with
    | some max =>
      if new_capacity > max then
        .error (.maxCapacityExceeded current_capacity new_capacity max)
      else
        .ok { p with
          storage := p.storage ++ [growth_amount],
          allocator := p.allocator.extend growth_amount,
          capacity := new_capacity,
          chunk_boundaries := p.chunk_boundaries ++ [new_capacity] }
    | none =>
      .ok { p with
        storage := p.storage ++ [growth_amount],
        allocator := p.allocator.extend growth_amount,
        capacity := new_capacity,
        chunk_boundaries := p.chunk_boundaries ++ [new_capacity] }

/-- Rust `GrowingPool::allocate`, returning the claimed slot index (the handle
binds exactly this index) together with the resulting pool state; an error
leaves the pool as it was, mirroring the early returns of the Rust code. The
write through the linear chunk scan touches slot contents only, which the
length-based storage model does not track; `linearScanLocation` gives the
location that write goes to. -/
def allocate (p : GrowingPool) : Except Error Nat × GrowingPool :=
  match p.allocator.allocate with
  | (some idx, a1) => (.ok idx, { p with allocator := a1 })
  | (none, _) =>
    match p.grow with
    | .error e => (.error e, p)
    | .ok p1 =>
      match p1.allocator.allocate with
      | (some idx, a1) => (.ok idx, { p1 with allocator := a1 })
      | (none, _) => (.error (.poolExhausted p1.capacity p1.capacity), p1)

/-- The reachable-state invariant of the growing pool tying the cached
boundaries to the chunks: boundaries are the cumulative chunk sums, every
chunk is non-empty (the initial chunk has the configured capacity, validated
positive, and `grow` refuses a zero growth amount), and the capacity cell is
the total chunk length. Established by `with_config` for positive capacities
and preserved by `grow` and `allocate` (see the preservation lemmas). -/
def Inv (p : GrowingPool) : Prop :=
  p.chunk_boundaries = cumulativeSums p.storage ∧
  (∀ c ∈ p.storage, 0 < c) ∧
  p.capacity = p.storage.sum

end GrowingPool

/-! ## Fixed pool — `src/pool/fixed.rs` -/

/-- `FixedPool` state: `MaybeUninit<T>` slots as `Option T` (`none` =
uninitialized or dropped in place), the stack tracker, and the capacity. The
`Poolable` hooks of the element type (`on_acquire` / `on_release`, both
`&mut self`) are modelled as `T → T` functions passed to the operations that
invoke them, mirroring that they belong to the element type, not the pool. -/
structure FixedPool (T : Type) where
  storage : List (Option T)
  allocator : StackAllocator
  capacity : Nat
  deriving Repr, DecidableEq

namespace FixedPool

/-- Rust `FixedPool::with_config` (and `new`): `capacity` uninitialized slots
and a fresh stack tracker. Config validation (capacity ≥ 1 etc.) happens in the
builder and is not needed by the claims below. -/
def new (T : Type) (capacity : Nat) : FixedPool T :=
  { storage := List.replicate capacity none,
    allocator := StackAllocator.new capacity,
    capacity := capacity }

/-- Rust `FixedPool::available`. -/
def available (p : FixedPool T) : Nat :=
  p.allocator.available

/-- Rust `FixedPool::allocated`: `capacity - available`. -/
def allocated (p : FixedPool T) : Nat :=
  p.capacity - p.available

/-- Rust `FixedPool::allocate`: claim an index (else `PoolExhausted` with
`allocated = capacity`, the tracker being full), run `value.on_acquire()`,
write the value into the slot, and hand back the index the returned
`OwnedHandle` binds. An error leaves the pool as it was. -/
def allocate (p : FixedPool T) (on_acquire : T → T) (value : T) :
    Except Error Nat × FixedPool T :=
  match p.allocator.allocate with
  | (none, _) => (.error (.poolExhausted p.capacity p.capacity), p)
  | (some index, a1) =>
    (.ok index,
     { p with allocator := a1, storage := p.storage.set index (some (on_acquire value)) })

/-- Rust `FixedPool::return_to_pool` (run by `OwnedHandle::drop`,
`src/handle/owned.rs`): run `on_release` on the slot's value, drop the element
in place (the slot becomes uninitialized), and free the index on the tracker.
The released value is discarded, so the `on_release` hook leaves no trace on
the pool state; the parameter records that the hook runs before the drop. -/
def return_to_pool (p : FixedPool T) (on_release : T → T) (index : Nat) : FixedPool T :=
  { p with storage := p.storage.set index none, allocator := p.allocator.free index }

/-- The per-element loop of Rust `FixedPool::allocate_batch`: allocate each
value in order, pushing the handle indices onto the `handles` accumulator; an
inner failure runs `drop(handles)` — each accumulated handle's drop calls
`return_to_pool`, front to back — and surfaces the error. The guard in
`allocate_batch` makes that failure path unreachable. -/
def allocateBatchLoop (on_acquire on_release : T → T) :
    FixedPool T → List T → List Nat → Except Error (List Nat) × FixedPool T
  | p, [], handles => (.ok handles, p)
  | p, value :: rest, handles =>
    match p.allocate on_acquire value with
    | (.ok h, p1) => allocateBatchLoop on_acquire on_release p1 rest (handles ++ [h])
    | (.error e, _) =>
      (.error e, handles.foldl (fun q h => q.return_to_pool on_release h) p)

/-- Rust `FixedPool::allocate_batch`: refuse upfront (leaving the pool
untouched) when more values than available slots are passed, else run the
allocation loop with an empty handle vector. -/
def allocate_batch (p : FixedPool T) (on_acquire on_release : T → T) (values : List T) :
    Except Error (List Nat) × FixedPool T :=
  if values.length > p.available then
    (.error (.poolExhausted p.capacity p.allocated), p)
  else
    allocateBatchLoop on_acquire on_release p values []

end FixedPool

/-! ## Operation-sequence helpers and reachable-state invariants -/

/-- Run `n` consecutive `allocate` calls on a stack tracker, collecting the
returned options. -/
def StackAllocator.allocateSeq : StackAllocator → Nat → List (Option Nat) × StackAllocator
  | s, 0 => ([], s)
  | s, n + 1 =>
    match s.allocate with
    | (o, s1) =>
      match allocateSeq s1 n with
      | (os, s2) => (o :: os, s2)

/-- Run a sequence of `free` calls on a stack tracker, in list order. -/
def StackAllocator.freeSeq (s : StackAllocator) (indices : List Nat) : StackAllocator :=
  indices.foldl StackAllocator.free s

/-- Run `n` consecutive `allocate` calls on a free-list tracker, collecting the
returned options. -/
def FreeListAllocator.allocateSeq : FreeListAllocator → Nat → List (Option Nat) × FreeListAllocator
  | s, 0 => ([], s)
  | s, n + 1 =>
    match s.allocate with
    | (o, s1) =>
      match allocateSeq s1 n with
      | (os, s2) => (o :: os, s2)

/-- Run `n` consecutive `allocate` calls on a bitmap tracker, keeping only the
final state (used to build reachable bitmap states). -/
def BitmapAllocator.allocateN : BitmapAllocator → Nat → BitmapAllocator
  | a, 0 => a
  | a, n + 1 => allocateN (a.allocate).2 n

/-- Reachable-state invariant of the bitmap tracker: the word count matches the
capacity, words are `u64` values, bits at positions at or above the capacity
are never set (only `mark_allocated` with an in-range index sets bits), and the
`allocated` counter counts the set bits below the capacity. Established by
`new` and preserved by in-contract `allocate` / `free` / `extend`. -/
def BitmapAllocator.Inv (a : BitmapAllocator) : Prop :=
  a.bitmap.length = (a.capacity + BITS_PER_WORD - 1) / BITS_PER_WORD ∧
  (∀ w ∈ a.bitmap, w < 2 ^ 64) ∧
  (∀ j < a.bitmap.length * 64, a.capacity ≤ j → a.is_allocated j = false) ∧
  a.allocated = (List.range a.capacity).countP (fun i => a.is_allocated i)

/-- Reachable-state invariant of the fixed pool used by the allocate/drop
round-trip law: every free slot holds uninitialized storage. Established by
`new` (all slots uninitialized, all indices free) and preserved by `allocate`
(removes the index it initializes from the free stack) and `return_to_pool`
(uninitializes the slot it frees). -/
def FixedPool.FreeSlotsUninit (p : FixedPool T) : Prop :=
  ∀ i ∈ p.allocator.free_stack, p.storage.getD i none = none

instance {T : Type} [DecidableEq T] (p : FixedPool T) : Decidable p.FreeSlotsUninit :=
  inferInstanceAs (Decidable (∀ i ∈ p.allocator.free_stack, p.storage.getD i none = none))

instance (a : BitmapAllocator) : Decidable a.Inv :=
  inferInstanceAs (Decidable (_ ∧ _ ∧ _ ∧ _))

instance (p : GrowingPool) : Decidable p.Inv :=
  inferInstanceAs (Decidable (_ ∧ _ ∧ _))

/-- A reachable two-chunk growing pool (initial capacity 2, grown once by a
linear-3 step), used as a concrete witness state. -/
def GrowingPool.demoTwoChunk : GrowingPool :=
  { storage := [2, 3],
    allocator := { free_list := [4, 3, 2, 1, 0], capacity := 5 },
    capacity := 5,
    chunk_boundaries := [2, 5],
    growth_strategy := .linear 3,
    max_capacity := none }

/-- The pool `GrowingPool.demoTwoChunk` grows into: a third chunk of 3 slots
appended, tracker extended, boundary 8 appended. -/
def GrowingPool.demoThreeChunk : GrowingPool :=
  { storage := [2, 3, 3],
    allocator := { free_list := [7, 6, 5, 4, 3, 2, 1, 0], capacity := 8 },
    capacity := 8,
    chunk_boundaries := [2, 5, 8],
    growth_strategy := .linear 3,
    max_capacity := none }

/-- A reachable two-chunk growing pool with every slot live (empty free list),
used as a concrete witness state for the chunk-lookup claim. -/
def GrowingPool.demoTwoChunkFull : GrowingPool :=
  { storage := [2, 3],
    allocator := { free_list := [], capacity := 5 },
    capacity := 5,
    chunk_boundaries := [2, 5],
    growth_strategy := .none,
    max_capacity := none }

/-! ## Helper lemmas -/

theorem StackAllocator.stack_free_allocate (s : StackAllocator) (i : Nat) :
    (s.free i).allocate = (some i, s) := by
  cases s
  rfl

theorem StackAllocator.freeSeq_append (s : StackAllocator) (js : List Nat) (a : Nat) :
    s.freeSeq (js ++ [a]) = (s.freeSeq js).free a := by
  simp [StackAllocator.freeSeq]

theorem StackAllocator.stack_allocateSeq_succ (s : StackAllocator) (n : Nat) :
    s.allocateSeq (n + 1) =
      (((s.allocate).1 :: ((s.allocate).2.allocateSeq n).1, ((s.allocate).2.allocateSeq n).2)) := by
  rfl

theorem FreeListAllocator.freelist_free_allocate (s : FreeListAllocator) (i : Nat) :
    (s.free i).allocate = (some i, s) := by
  cases s
  rfl

theorem FreeListAllocator.freelist_allocateSeq_succ (s : FreeListAllocator) (n : Nat) :
    s.allocateSeq (n + 1) =
      ((s.allocate).1 :: ((s.allocate).2.allocateSeq n).1, ((s.allocate).2.allocateSeq n).2) := by
  rfl

theorem FreeListAllocator.allocateSeq_drain (l : List Nat) (c : Nat) :
    FreeListAllocator.allocateSeq { free_list := l, capacity := c } l.length =
      (l.map some, { free_list := [], capacity := c }) := by
  induction l with
  | nil => rfl
  | cons i rest ih =>
    rw [List.length_cons, FreeListAllocator.freelist_allocateSeq_succ]
    have halloc : ({ free_list := i :: rest, capacity := c } : FreeListAllocator).allocate =
        (some i, { free_list := rest, capacity := c }) := rfl
    rw [halloc, ih]
    rfl

theorem cumulativeSums_length (l : List Nat) : (cumulativeSums l).length = l.length := by
  induction l with
  | nil => rfl
  | cons a t ih => simp [cumulativeSums, ih]

theorem cumulativeSums_append_singleton (l : List Nat) (d : Nat) :
    cumulativeSums (l ++ [d]) = cumulativeSums l ++ [l.sum + d] := by
  induction l with
  | nil => simp [cumulativeSums]
  | cons a t ih =>
    have h1 : cumulativeSums ((a :: t) ++ [d]) =
        a :: (cumulativeSums (t ++ [d])).map (fun x => a + x) := rfl
    rw [h1, ih, List.map_append]
    simp [cumulativeSums, List.sum_cons, Nat.add_assoc]

theorem cumulativeSums_pos (l : List Nat) (hl : ∀ c ∈ l, 0 < c) :
    ∀ x ∈ cumulativeSums l, 0 < x := by
  induction l with
  | nil => simp [cumulativeSums]
  | cons a t ih =>
    intro x hx
    simp only [cumulativeSums, List.mem_cons, List.mem_map] at hx
    rcases hx with rfl | ⟨y, _, rfl⟩
    · exact hl x (List.mem_cons_self _ _)
    · have := hl a (List.mem_cons_self _ _)
      omega

theorem cumulativeSums_sorted (l : List Nat) (hl : ∀ c ∈ l, 0 < c) :
    List.Pairwise (· < ·) (cumulativeSums l) := by
  induction l with
  | nil => simp [cumulativeSums]
  | cons a t ih =>
    have ht : ∀ c ∈ t, 0 < c := fun c hc => hl c (List.mem_cons_of_mem a hc)
    simp only [cumulativeSums, List.pairwise_cons]
    constructor
    · intro b hb
      obtain ⟨y, hy, rfl⟩ := List.mem_map.mp hb
      have := cumulativeSums_pos t ht y hy
      omega
    · exact List.Pairwise.map _ (fun x y hxy => by omega) (ih ht)

theorem indexOf_eq_countP_of_sorted (xs : List Nat) (t : Nat)
    (hs : List.Pairwise (· < ·) xs) (hmem : t ∈ xs) :
    List.indexOf t xs = xs.countP (fun x => decide (x < t)) := by
  induction xs with
  | nil => cases hmem
  | cons x l ih =>
    obtain ⟨hx, hl⟩ := List.pairwise_cons.mp hs
    by_cases hxt : x = t
    · subst hxt
      rw [List.indexOf_cons_self]
      symm
      rw [List.countP_cons_of_neg _ _ (by simp)]
      rw [List.countP_eq_zero]
      intro a ha
      have := hx a ha
      simp only [decide_eq_true_eq]
      omega
    · have htl : t ∈ l := by
        rcases List.mem_cons.mp hmem with h | h
        · exact absurd h.symm hxt
        · exact h
      have hxlt : x < t := hx t htl
      rw [List.indexOf_cons_ne _ hxt]
      rw [List.countP_cons_of_pos _ _ (by simpa using hxlt)]
      rw [ih hl htl]

theorem chunkSearchIdx_eq_countP (xs : List Nat) (t : Nat)
    (hs : List.Pairwise (· < ·) xs) :
    chunkSearchIdx xs t = xs.countP (fun x => decide (x < t)) := by
  unfold chunkSearchIdx binarySearch
  by_cases hmem : t ∈ xs
  · have hc : xs.contains t = true := List.elem_iff.mpr hmem
    rw [if_pos hc]
    exact indexOf_eq_countP_of_sorted xs t hs hmem
  · have hc : ¬ (xs.contains t = true) := fun h => hmem (List.elem_iff.mp h)
    rw [if_neg hc]

theorem getD_map_add (a : Nat) (cs : List Nat) (k : Nat) (hk : k < cs.length) :
    (cs.map (fun x => a + x)).getD k 0 = a + cs.getD k 0 := by
  induction cs generalizing k with
  | nil => simp at hk
  | cons x t ih =>
    cases k with
    | zero => simp
    | succ j =>
      simp only [List.map_cons, List.getD_cons_succ]
      exact ih j (by simpa using hk)

theorem indexOf_map_add (a : Nat) (cs : List Nat) (b : Nat) :
    List.indexOf (a + b) (cs.map (fun x => a + x)) = List.indexOf b cs := by
  induction cs with
  | nil => rfl
  | cons x t ih =>
    by_cases hxb : x = b
    · subst hxb
      simp only [List.map_cons, List.indexOf_cons_self]
    · have hne : a + x ≠ a + b := by omega
      rw [List.map_cons, List.indexOf_cons_ne _ hne, List.indexOf_cons_ne _ hxb, ih]

theorem chunkSearchIdx_cons_small (len : Nat) (ms : List Nat) (i : Nat)
    (hi : i < len) (hbig : ∀ x ∈ ms, len < x) :
    chunkSearchIdx (len :: ms) (i + 1) = 0 := by
  by_cases heq : i + 1 = len
  · unfold chunkSearchIdx binarySearch
    have hmem : (i + 1) ∈ (len :: ms) := by rw [heq]; exact List.mem_cons_self _ _
    rw [if_pos (List.elem_iff.mpr hmem), heq, List.indexOf_cons_self]
  · have hlt : i + 1 < len := by omega
    have hmem : (i + 1) ∉ (len :: ms) := by
      intro h
      rcases List.mem_cons.mp h with h | h
      · omega
      · have := hbig _ h
        omega
    unfold chunkSearchIdx binarySearch
    rw [if_neg (fun h => hmem (List.elem_iff.mp h))]
    rw [List.countP_cons_of_neg _ _ (by simp only [decide_eq_true_eq]; omega)]
    rw [List.countP_eq_zero.mpr]
    intro a ha
    have := hbig a ha
    simp only [decide_eq_true_eq]
    omega

theorem chunkSearchIdx_cons_ge (len : Nat) (cs : List Nat) (i : Nat) (hlen : len ≤ i) :
    chunkSearchIdx (len :: cs.map (fun x => len + x)) (i + 1) =
      chunkSearchIdx cs ((i - len) + 1) + 1 := by
  have htgt : len + ((i - len) + 1) = i + 1 := by omega
  by_cases hmem : ((i - len) + 1) ∈ cs
  · have hmem2 : (i + 1) ∈ (len :: cs.map (fun x => len + x)) := by
      apply List.mem_cons_of_mem
      rw [← htgt]
      exact List.mem_map_of_mem _ hmem
    unfold chunkSearchIdx binarySearch
    rw [if_pos (List.elem_iff.mpr hmem2), if_pos (List.elem_iff.mpr hmem)]
    have hne : len ≠ i + 1 := by omega
    rw [List.indexOf_cons_ne _ hne, ← htgt, indexOf_map_add]
  · have hmem2 : (i + 1) ∉ (len :: cs.map (fun x => len + x)) := by
      intro h
      rcases List.mem_cons.mp h with h | h
      · omega
      · obtain ⟨y, hy, hyy⟩ := List.mem_map.mp h
        apply hmem
        have : y = (i - len) + 1 := by omega
        rwa [← this]
    unfold chunkSearchIdx binarySearch
    rw [if_neg (fun h => hmem2 (List.elem_iff.mp h)),
      if_neg (fun h => hmem (List.elem_iff.mp h))]
    rw [List.countP_cons_of_pos _ _ (by simp only [decide_eq_true_eq]; omega),
      List.countP_map]
    have : ((fun x => decide (x < i + 1)) ∘ fun x => len + x) =
        (fun x => decide (x < (i - len) + 1)) := by
      funext x
      simp only [Function.comp_apply]
      rw [decide_eq_decide]
      omega
    rw [this]

theorem sum_take_succ (l : List Nat) (k : Nat) (hk : k < l.length) :
    (l.take (k + 1)).sum = (l.take k).sum + l.getD k 0 := by
  induction l generalizing k with
  | nil => simp at hk
  | cons a t ih =>
    cases k with
    | zero => simp
    | succ j =>
      simp only [List.take_succ_cons, List.sum_cons, List.getD_cons_succ]
      rw [ih j (by simpa using hk)]
      omega

theorem sum_take_mono (l : List Nat) {k k2 : Nat} (h : k ≤ k2) :
    (l.take k).sum ≤ (l.take k2).sum := by
  calc (l.take k).sum = ((l.take k2).take k).sum := by
        rw [List.take_take, Nat.min_eq_left h]
    _ ≤ ((l.take k2).take k).sum + ((l.take k2).drop k).sum := Nat.le_add_right _ _
    _ = (l.take k2).sum := by rw [← List.sum_append, List.take_append_drop]

theorem getD_pos_lt_length (l : List Nat) (k : Nat) (h : 0 < l.getD k 0) :
    k < l.length := by
  by_contra hk
  rw [List.getD_eq_default _ _ (by omega)] at h
  exact absurd h (lt_irrefl 0)

theorem chunk_location_unique (l : List Nat) {c o c2 o2 : Nat}
    (ho : o < l.getD c 0) (ho2 : o2 < l.getD c2 0)
    (heq : (l.take c).sum + o = (l.take c2).sum + o2) :
    c = c2 ∧ o = o2 := by
  have hc : c < l.length := getD_pos_lt_length l c (by omega)
  have hc2 : c2 < l.length := getD_pos_lt_length l c2 (by omega)
  rcases Nat.lt_trichotomy c c2 with h | h | h
  · exfalso
    have h1 : (l.take (c + 1)).sum = (l.take c).sum + l.getD c 0 := sum_take_succ l c hc
    have h2 : (l.take (c + 1)).sum ≤ (l.take c2).sum := sum_take_mono l h
    omega
  · subst h
    omega
  · exfalso
    have h1 : (l.take (c2 + 1)).sum = (l.take c2).sum + l.getD c2 0 := sum_take_succ l c2 hc2
    have h2 : (l.take (c2 + 1)).sum ≤ (l.take c).sum := sum_take_mono l h
    omega

theorem linearScanLocation_append (l l2 : List Nat) (i : Nat) (h : i < l.sum) :
    linearScanLocation (l ++ l2) i = linearScanLocation l i := by
  induction l generalizing i with
  | nil => simp at h
  | cons len rest ih =>
    simp only [List.cons_append, linearScanLocation]
    by_cases hcase : i < len
    · rw [if_pos hcase, if_pos hcase]
    · rw [if_neg hcase, if_neg hcase]
      exact congrArg _ (ih (i - len) (by simp only [List.sum_cons] at h; omega))

theorem chunkLocation_spec (l : List Nat) (hl : ∀ c ∈ l, 0 < c) :
    ∀ i, i < l.sum → ∃ c o, linearScanLocation l i = some (c, o) ∧
      computeChunkLocation (cumulativeSums l) i = (c, o) ∧
      o < l.getD c 0 ∧ i = (l.take c).sum + o ∧ c < l.length := by
  induction l with
  | nil => intro i hi; simp at hi
  | cons len rest ih =>
    intro i hi
    have hrest : ∀ c ∈ rest, 0 < c := fun c hc => hl c (List.mem_cons_of_mem len hc)
    have hcons : cumulativeSums (len :: rest) =
        len :: (cumulativeSums rest).map (fun x => len + x) := rfl
    by_cases hcase : i < len
    · refine ⟨0, i, ?_, ?_, by simpa using hcase, by simp, by simp⟩
      · simp [linearScanLocation, hcase]
      · have hms : ∀ x ∈ (cumulativeSums rest).map (fun y => len + y), len < x := by
          intro x hx
          obtain ⟨y, hy, rfl⟩ := List.mem_map.mp hx
          have := cumulativeSums_pos rest hrest y hy
          omega
        unfold computeChunkLocation
        rw [hcons, chunkSearchIdx_cons_small len _ i hcase hms]
        simp
    · push_neg at hcase
      have hi2 : i - len < rest.sum := by
        simp only [List.sum_cons] at hi
        omega
      obtain ⟨c, o, hlin, hcomp, ho, hsum, hclen⟩ := ih hrest (i - len) hi2
      unfold computeChunkLocation at hcomp
      have hfst : chunkSearchIdx (cumulativeSums rest) ((i - len) + 1) = c := congrArg Prod.fst hcomp
      have hsnd : (if chunkSearchIdx (cumulativeSums rest) ((i - len) + 1) = 0 then i - len
          else (i - len) - (cumulativeSums rest).getD
            (chunkSearchIdx (cumulativeSums rest) ((i - len) + 1) - 1) 0) = o :=
        congrArg Prod.snd hcomp
      rw [hfst] at hsnd
      refine ⟨c + 1, o, ?_, ?_, by simpa using ho, ?_, by simpa using hclen⟩
      · simp only [linearScanLocation, if_neg (not_lt.mpr hcase), hlin]
        rfl
      · unfold computeChunkLocation
        rw [hcons, chunkSearchIdx_cons_ge len _ i hcase, hfst]
        have hoff : i -
            (len :: (cumulativeSums rest).map (fun x => len + x)).getD ((c + 1) - 1) 0 = o := by
          simp only [Nat.add_sub_cancel]
          cases hc : c with
          | zero =>
            rw [hc] at hsnd
            rw [if_pos rfl] at hsnd
            simp only [List.getD_cons_zero]
            omega
          | succ k =>
            rw [hc] at hsnd
            rw [if_neg (Nat.succ_ne_zero k)] at hsnd
            simp only [Nat.succ_sub_one] at hsnd
            have hklen : k < (cumulativeSums rest).length := by
              rw [cumulativeSums_length]
              omega
            simp only [List.getD_cons_succ]
            rw [getD_map_add len _ k hklen]
            omega
        show (c + 1, if c + 1 = 0 then i
          else i - (len :: (cumulativeSums rest).map (fun x => len + x)).getD ((c + 1) - 1) 0) =
            (c + 1, o)
        rw [if_neg (Nat.succ_ne_zero c), hoff]
      · simp only [List.take_succ_cons, List.sum_cons]
        omega

/-! ## Claim theorems: trackers -/

/-- C3: the stack tracker is LIFO. Freeing any index and immediately
allocating hands back exactly that index and restores the tracker state; more
generally, after any sequence of frees with no intervening allocation, the
same number of allocations returns those indices in reverse order of the
frees and restores the original state. -/
theorem StackAllocator.stack_lifo_spec :
    (∀ (s : StackAllocator) (i : Nat), (s.free i).allocate = (some i, s)) ∧
    (∀ (s : StackAllocator) (js : List Nat),
      (s.freeSeq js).allocateSeq js.length = (js.reverse.map some, s)) := by
  refine ⟨StackAllocator.stack_free_allocate, ?_⟩
  intro s js
  induction js using List.reverseRecOn generalizing s with
  | nil => rfl
  | append_singleton l a ih =>
    rw [StackAllocator.freeSeq_append]
    have hlen : (l ++ [a]).length = l.length + 1 := by simp
    rw [hlen, StackAllocator.stack_allocateSeq_succ, StackAllocator.stack_free_allocate]
    simp [ih]

/-- C10: the free-list tracker is observationally a LIFO stack. A fresh
`FreeListAllocator` with `n` slots serves `n-1, n-2, …, 0` in that order and
ends empty; freeing any index and immediately allocating hands back exactly
that index and restores the state; a fresh `GrowingPool` (which uses the
free-list tracker) hands out the highest index first, while the fixed pool's
stack tracker hands out index `0` first. -/
theorem FreeListAllocator.freelist_lifo_spec :
    (∀ (s : FreeListAllocator) (i : Nat), (s.free i).allocate = (some i, s)) ∧
    (∀ n : Nat, (FreeListAllocator.new n).allocateSeq n =
      (((List.range n).reverse).map some, { free_list := [], capacity := n })) ∧
    (∀ n : Nat, ((StackAllocator.new (n + 1)).allocate).1 = some 0) ∧
    (∀ (n : Nat) (strategy : GrowthStrategy) (max : Option Nat),
      ((GrowingPool.with_config (n + 1) strategy max).allocate).1 = .ok n) := by
  refine ⟨FreeListAllocator.freelist_free_allocate, ?_, ?_, ?_⟩
  · intro n
    have h := FreeListAllocator.allocateSeq_drain ((List.range n).reverse) n
    simpa [FreeListAllocator.new] using h
  · intro n
    simp [StackAllocator.new, StackAllocator.allocate, List.range_succ_eq_map]
  · intro n strategy max
    have hrev : (List.range (n + 1)).reverse = n :: (List.range n).reverse := by
      simp [List.range_succ]
    simp [GrowingPool.with_config, GrowingPool.allocate, FreeListAllocator.new,
      FreeListAllocator.allocate, hrev]

theorem setNone_eq_self {α : Type} (l : List (Option α)) (i : Nat)
    (h : l.getD i none = none) : l.set i none = l := by
  induction l generalizing i with
  | nil => rfl
  | cons a t ih =>
    cases i with
    | zero =>
      simp only [List.getD_cons_zero] at h
      simp [h]
    | succ j =>
      simp only [List.getD_cons_succ] at h
      simp [ih j h]

theorem FixedPool.allocateBatchLoop_ok (T : Type) (acq rel : T → T) (values : List T) :
    ∀ (p : FixedPool T) (acc : List Nat), values.length ≤ p.available →
      ∃ hs p1, FixedPool.allocateBatchLoop acq rel p values acc = (.ok hs, p1) ∧
        hs.length = acc.length + values.length := by
  induction values with
  | nil =>
    intro p acc _
    exact ⟨acc, p, rfl, by simp⟩
  | cons v rest ih =>
    intro p acc h
    match hfs : p.allocator.free_stack with
    | [] =>
      exfalso
      simp [FixedPool.available, StackAllocator.available, hfs] at h
    | i :: tl =>
      have hall : p.allocate acq v =
          (.ok i, { p with allocator := { p.allocator with free_stack := tl },
                           storage := p.storage.set i (some (acq v)) }) := by
        simp [FixedPool.allocate, StackAllocator.allocate, hfs]
      have hav : rest.length ≤
          ({ p with allocator := { p.allocator with free_stack := tl },
                    storage := p.storage.set i (some (acq v)) } : FixedPool T).available := by
        simp only [FixedPool.available, StackAllocator.available, hfs, List.length_cons] at h ⊢
        omega
      obtain ⟨hs, p1, heq, hlen⟩ := ih _ (acc ++ [i]) hav
      refine ⟨hs, p1, ?_, ?_⟩
      · simp only [FixedPool.allocateBatchLoop, hall]
        exact heq
      · simp only [List.length_append, List.length_singleton] at hlen
        simp [hlen, List.length_cons]
        omega

theorem and_one_shift_ne_zero (w b : Nat) : (w &&& (1 <<< b) != 0) = w.testBit b := by
  rw [Nat.shiftLeft_eq, one_mul, Nat.and_two_pow]
  cases h : w.testBit b
  · simp
  · simp [Nat.pos_pow_of_pos]

theorem word_eq_max_of_bits (w : Nat) (hw : w < 2 ^ 64) (h : ∀ i < 64, w.testBit i = true) :
    w = 2 ^ 64 - 1 := by
  apply Nat.eq_of_testBit_eq
  intro i
  rw [Nat.testBit_two_pow_sub_one]
  by_cases hi : i < 64
  · simp [hi, h i hi]
  · have hwi : w.testBit i = false :=
      Nat.testBit_eq_false_of_lt
        (lt_of_lt_of_le hw (Nat.pow_le_pow_right (by norm_num) (by omega)))
    simp [hi, hwi]

theorem testBit_xor_max (w : Nat) (i : Nat) (hi : i < 64) :
    ((2 ^ 64 - 1) ^^^ w).testBit i = !(w.testBit i) := by
  rw [Nat.testBit_xor, Nat.testBit_two_pow_sub_one]
  simp [hi]

theorem findIdx_range'_eq (p : Nat → Bool) (k : Nat) (hp : p k = true) :
    ∀ (m s : Nat), s ≤ k → k < s + m → (∀ j, s ≤ j → j < k → p j = false) →
      (List.range' s m).findIdx p = k - s := by
  intro m
  induction m with
  | zero =>
    intro s h1 h2 _
    omega
  | succ mm ih =>
    intro s h1 h2 hbelow
    rw [List.range'_succ, List.findIdx_cons]
    by_cases hsk : s = k
    · subst hsk
      simp [hp]
    · have hps : p s = false := hbelow s (le_refl _) (by omega)
      rw [hps]
      simp only [cond_false]
      rw [ih (s + 1) (by omega) (by omega) (fun j hj1 hj2 => hbelow j (by omega) hj2)]
      omega

theorem findIdx_range_eq (p : Nat → Bool) (n k : Nat) (hk : k < n)
    (hbelow : ∀ j < k, p j = false) (hp : p k = true) :
    (List.range n).findIdx p = k := by
  rw [List.range_eq_range']
  have h := findIdx_range'_eq p k hp n 0 (by omega) (by omega)
    (fun j _ hj2 => hbelow j hj2)
  simpa using h

theorem getD_mem_of_lt (l : List Nat) (n : Nat) (h : n < l.length) :
    l.getD n 0 ∈ l := by
  rw [List.getD_eq_getElem l 0 h]
  exact List.getElem_mem h

theorem BitmapAllocator.is_allocated_eq_testBit (a : BitmapAllocator) (j : Nat) :
    a.is_allocated j =
      (a.bitmap.getD (j / BitmapAllocator.BITS_PER_WORD) 0).testBit
        (j % BitmapAllocator.BITS_PER_WORD) := by
  unfold is_allocated
  exact and_one_shift_ne_zero _ _

theorem BitmapAllocator.findFreeLoop_hits (a : BitmapAllocator) (num_words m : Nat)
    (hhint : a.next_free_hint = 0)
    (hw0 : m / 64 < num_words)
    (hfull : ∀ o < m / 64, a.bitmap.getD o 0 = BitmapAllocator.U64_MAX)
    (hword : a.bitmap.getD (m / 64) 0 ≠ BitmapAllocator.U64_MAX)
    (hbit : trailingZeros (BitmapAllocator.U64_MAX ^^^ a.bitmap.getD (m / 64) 0) = m % 64)
    (hm : m < a.capacity) :
    ∀ (n s : Nat), s ≤ m / 64 → m / 64 < s + n →
      a.findFreeLoop num_words (List.range' s n) = some (m / 64, m) := by
  intro n
  induction n with
  | zero =>
    intro s h1 h2
    omega
  | succ nn ih =>
    intro s h1 h2
    rw [List.range'_succ]
    simp only [findFreeLoop, hhint, Nat.zero_add]
    rw [Nat.mod_eq_of_lt (by omega)]
    by_cases hsw : s = m / 64
    · subst hsw
      rw [if_pos hword, hbit]
      have hidx : (m / 64) * BitmapAllocator.BITS_PER_WORD + m % 64 = m := by
        have := Nat.div_add_mod m 64
        simp only [BitmapAllocator.BITS_PER_WORD]
        omega
      rw [hidx, if_pos hm]
    · have hmax : a.bitmap.getD s 0 = BitmapAllocator.U64_MAX := hfull s (by omega)
      rw [if_neg (fun h => h hmax)]
      exact ih (s + 1) (by omega) (by omega)

/-! ## Claim theorems: bitmap tracker (C5) -/

set_option maxRecDepth 100000 in
/-- C5 counterexample: the hint does change which index `allocate` returns.
Reachable state: on a fresh 65-slot bitmap tracker, allocate all 65 slots,
then free index 0 (hint moves to word 0) and index 64 (hint moves to word 1).
The free set is `{0, 64}`, whose minimum is 0, yet `allocate` scans from the
hint word and returns `Some(64)`. -/
theorem BitmapAllocator.hint_overrides_lowest_free_counterexample :
    ((((BitmapAllocator.allocateN (BitmapAllocator.new 65) 65).free 0).free 64).allocate).1 =
      some 64 ∧
    (((BitmapAllocator.allocateN (BitmapAllocator.new 65) 65).free 0).free 64).is_allocated 0 =
      false ∧
    (0 : Nat) < ((((BitmapAllocator.new 65).allocateN 65).free 0).free 64).capacity := by
  decide

/-- C5 amended: the bitmap tracker claims the lowest-indexed free slot
whenever the scan starts at word 0 (in particular in any state whose last
`allocate`/`free` touched word 0, and in every state with at most 64 slots):
for every tracker satisfying the reachable-state invariant whose hint is at
word 0, if `m` is free and every index below `m` is live, `allocate()` returns
`Some m`. In general the hint picks the word the scan starts from, so the
returned slot is the lowest free index at or after the hint word, wrapping —
not the global minimum. -/
theorem BitmapAllocator.allocate_min_free_of_hint_zero (a : BitmapAllocator) (m : Nat)
    (hInv : a.Inv) (hhint : a.next_free_hint = 0)
    (hm : m < a.capacity) (hFree : a.is_allocated m = false)
    (hMin : ∀ j < m, a.is_allocated j = true) :
    (a.allocate).1 = some m := by
  obtain ⟨hlen, hwords, hhigh, hcount⟩ := hInv
  simp only [BitmapAllocator.BITS_PER_WORD] at hlen
  have hm64 : m % 64 < 64 := Nat.mod_lt _ (by norm_num)
  have hcapbound : a.capacity ≤ a.bitmap.length * 64 := by
    rw [hlen]
    have h1 := Nat.div_add_mod (a.capacity + 63) 64
    have h2 : (a.capacity + 63) % 64 < 64 := Nat.mod_lt _ (by norm_num)
    omega
  have hw0 : m / 64 < a.bitmap.length := by omega
  have hfull : ∀ o < m / 64, a.bitmap.getD o 0 = BitmapAllocator.U64_MAX := by
    intro o ho
    have holen : o < a.bitmap.length := by omega
    apply word_eq_max_of_bits
    · exact hwords _ (getD_mem_of_lt _ _ holen)
    · intro i hi
      have hj : o * 64 + i < m := by omega
      have hja := hMin (o * 64 + i) hj
      rw [BitmapAllocator.is_allocated_eq_testBit] at hja
      have hd : (o * 64 + i) / BitmapAllocator.BITS_PER_WORD = o := by
        simp only [BitmapAllocator.BITS_PER_WORD]
        omega
      have hm2 : (o * 64 + i) % BitmapAllocator.BITS_PER_WORD = i := by
        simp only [BitmapAllocator.BITS_PER_WORD]
        omega
      rw [hd, hm2] at hja
      exact hja
  have hFree2 : (a.bitmap.getD (m / 64) 0).testBit (m % 64) = false := by
    have h := hFree
    rw [BitmapAllocator.is_allocated_eq_testBit] at h
    simpa only [BitmapAllocator.BITS_PER_WORD] using h
  have hword : a.bitmap.getD (m / 64) 0 ≠ BitmapAllocator.U64_MAX := by
    intro heq
    have h1 : (a.bitmap.getD (m / 64) 0).testBit (m % 64) = true := by
      rw [heq]
      show ((2 : Nat) ^ 64 - 1).testBit (m % 64) = true
      rw [Nat.testBit_two_pow_sub_one]
      simp [hm64]
    rw [hFree2] at h1
    cases h1
  have hbit : trailingZeros (BitmapAllocator.U64_MAX ^^^ a.bitmap.getD (m / 64) 0) = m % 64 := by
    unfold trailingZeros
    apply findIdx_range_eq _ 64 (m % 64) hm64
    · intro j hj
      show ((2 : Nat) ^ 64 - 1 ^^^ a.bitmap.getD (m / 64) 0).testBit j = false
      rw [testBit_xor_max _ j (by omega)]
      have hidx : (m / 64) * 64 + j < m := by omega
      have hja := hMin _ hidx
      rw [BitmapAllocator.is_allocated_eq_testBit] at hja
      have hd : ((m / 64) * 64 + j) / BitmapAllocator.BITS_PER_WORD = m / 64 := by
        simp only [BitmapAllocator.BITS_PER_WORD]
        omega
      have hm2 : ((m / 64) * 64 + j) % BitmapAllocator.BITS_PER_WORD = j := by
        simp only [BitmapAllocator.BITS_PER_WORD]
        omega
      rw [hd, hm2] at hja
      rw [hja]
      rfl
    · show ((2 : Nat) ^ 64 - 1 ^^^ a.bitmap.getD (m / 64) 0).testBit (m % 64) = true
      rw [testBit_xor_max _ _ hm64, hFree2]
      rfl
  have hne : a.allocated < a.capacity := by
    rw [hcount]
    have hle : (List.range a.capacity).countP (fun i => a.is_allocated i) ≤
        (List.range a.capacity).length := List.countP_le_length _
    have hne2 : (List.range a.capacity).countP (fun i => a.is_allocated i) ≠
        (List.range a.capacity).length := by
      intro heq
      have h := List.countP_eq_length.mp heq m (List.mem_range.mpr hm)
      simp only [hFree] at h
      cases h
    simp only [List.length_range] at hle hne2 ⊢
    omega
  have hloop : a.findFreeLoop a.bitmap.length (List.range a.bitmap.length) =
      some (m / 64, m) := by
    rw [List.range_eq_range']
    exact BitmapAllocator.findFreeLoop_hits a a.bitmap.length m hhint hw0 hfull hword hbit hm
      a.bitmap.length 0 (by omega) (by omega)
  have hslot : a.find_free_slot = (some m, { a with next_free_hint := m / 64 }) := by
    simp only [find_free_slot, hloop]
  unfold allocate
  rw [if_neg (not_le.mpr hne), hslot]

/-- Witness for the amended C5: a fresh three-slot bitmap tracker (hint at
word 0, free set `{0, 1, 2}`) allocates index 0, the minimum. -/
theorem BitmapAllocator.allocate_min_free_of_hint_zero_witness :
    (BitmapAllocator.new 3).Inv ∧ (((BitmapAllocator.new 3).allocate).1 = some 0) := by
  refine ⟨by decide, ?_⟩
  exact BitmapAllocator.allocate_min_free_of_hint_zero (BitmapAllocator.new 3) 0
    (by decide) rfl (by decide) (by decide) (fun j hj => absurd hj (Nat.not_lt_zero j))

/-! ## Claim theorems: fixed pool -/

/-- C8: `FixedPool::allocate_batch` is all-or-nothing. When more values than
available slots are passed it fails upfront with
`PoolExhausted { capacity, allocated }` and the pool is untouched; otherwise it
succeeds with exactly one handle per value; the empty batch always succeeds
with an empty handle list, whatever the pool state. -/
theorem FixedPool.allocate_batch_all_or_nothing (T : Type) (p : FixedPool T)
    (acq rel : T → T) (values : List T) :
    (p.available < values.length →
      p.allocate_batch acq rel values = (.error (.poolExhausted p.capacity p.allocated), p)) ∧
    (values.length ≤ p.available →
      ∃ hs p1, p.allocate_batch acq rel values = (.ok hs, p1) ∧ hs.length = values.length) ∧
    p.allocate_batch acq rel [] = (.ok [], p) := by
  refine ⟨?_, ?_, ?_⟩
  · intro h
    unfold allocate_batch
    rw [if_pos h]
  · intro h
    unfold allocate_batch
    rw [if_neg (not_lt.mpr h)]
    obtain ⟨hs, p1, heq, hlen⟩ := FixedPool.allocateBatchLoop_ok T acq rel values p [] h
    exact ⟨hs, p1, heq, by simpa using hlen⟩
  · unfold allocate_batch
    rw [if_neg (by simp)]
    rfl

/-- Witness for C8: on a fresh two-slot pool, a three-value batch fails with
`PoolExhausted` leaving the pool untouched, and a one-value batch returns one
handle. -/
theorem FixedPool.allocate_batch_all_or_nothing_witness :
    (FixedPool.new Nat 2).allocate_batch id id [5, 6, 7] =
      (.error (.poolExhausted 2 0), FixedPool.new Nat 2) ∧
    ∃ hs p1, (FixedPool.new Nat 2).allocate_batch id id [5] = (.ok hs, p1) ∧ hs.length = 1 := by
  constructor
  · exact (FixedPool.allocate_batch_all_or_nothing Nat (FixedPool.new Nat 2) id id
      [5, 6, 7]).1 (by decide)
  · exact (FixedPool.allocate_batch_all_or_nothing Nat (FixedPool.new Nat 2) id id
      [5]).2.1 (by decide)

/-- C9: allocate-then-drop is the identity on the fixed pool state. For every
pool whose free slots hold uninitialized storage (true of every reachable
pool), a successful `allocate` followed by the returned handle's drop
(`return_to_pool`, which runs the `on_release` hook and then destroys the
element) restores the pool exactly: same storage, same free stack in the same
order, hence the same `available`, `allocated` and `capacity`. -/
theorem FixedPool.allocate_then_drop_identity (T : Type) (p : FixedPool T)
    (acq rel : T → T) (v : T) (idx : Nat) (p1 : FixedPool T)
    (hInv : p.FreeSlotsUninit)
    (h : p.allocate acq v = (.ok idx, p1)) :
    p1.return_to_pool rel idx = p := by
  match hfs : p.allocator.free_stack with
  | [] =>
    have herr : p.allocate acq v = (.error (.poolExhausted p.capacity p.capacity), p) := by
      simp [FixedPool.allocate, StackAllocator.allocate, hfs]
    rw [herr] at h
    exact absurd (congrArg Prod.fst h) (by simp)
  | i :: tl =>
    have hall : p.allocate acq v =
        (.ok i, { p with allocator := { p.allocator with free_stack := tl },
                         storage := p.storage.set i (some (acq v)) }) := by
      simp [FixedPool.allocate, StackAllocator.allocate, hfs]
    rw [hall] at h
    have hidx : i = idx := by
      have := congrArg Prod.fst h
      simpa using this
    have hp1 : p1 = { p with allocator := { p.allocator with free_stack := tl },
                             storage := p.storage.set i (some (acq v)) } := by
      have := congrArg Prod.snd h
      simp at this
      exact this.symm
    subst hidx
    subst hp1
    have hslot : p.storage.getD i none = none := hInv i (by rw [hfs]; exact List.mem_cons_self i tl)
    have hstor : (p.storage.set i (some (acq v))).set i none = p.storage := by
      rw [List.set_set]
      exact setNone_eq_self p.storage i hslot
    have halloc2 : ({ p.allocator with free_stack := tl } : StackAllocator).free i =
        p.allocator := by
      cases hpa : p.allocator with
      | mk fs cap =>
        rw [hpa] at hfs
        simp at hfs
        simp [StackAllocator.free, hfs]
    cases p with
    | mk storage alloc cap =>
      simp only [FixedPool.return_to_pool] at *
      simp [hstor, halloc2]

/-- Witness for C9: on a fresh one-slot `Nat` pool, allocating `5` and
dropping the handle restores the fresh pool exactly. -/
theorem FixedPool.allocate_then_drop_identity_witness :
    FixedPool.FreeSlotsUninit (FixedPool.new Nat 1) ∧
    FixedPool.return_to_pool (((FixedPool.new Nat 1).allocate id 5).2) id 0 =
      FixedPool.new Nat 1 := by
  refine ⟨by decide, ?_⟩
  exact FixedPool.allocate_then_drop_identity Nat (FixedPool.new Nat 1) id id 5 0
    (((FixedPool.new Nat 1).allocate id 5).2) (by decide) rfl

/-! ## Claim theorems: out-of-range release (C6) -/

/-- C6 counterexample: in release builds the out-of-range check in `free` is a
`debug_assert!`, compiled out, so `free(5)` on a capacity-2 stack or free-list
tracker signals no error and silently pushes the out-of-range index — which
the very next `allocate` then hands out. -/
theorem out_of_range_free_silent_in_release_counterexample :
    ((StackAllocator.new 2).free 5).free_stack = 5 :: (StackAllocator.new 2).free_stack ∧
    (((StackAllocator.new 2).free 5).allocate).1 = some 5 ∧
    ((FreeListAllocator.new 2).free 5).free_list = 5 :: (FreeListAllocator.new 2).free_list ∧
    (((FreeListAllocator.new 2).free 5).allocate).1 = some 5 := by
  decide

/-- C6 amended: releasing an out-of-range index is detected in debug builds
only. In debug builds, `free(index)` with `index ≥ capacity()` fails the
bounds `debug_assert!` in all three trackers; in release builds the assertion
is compiled out and the stack and free-list trackers silently push the
out-of-range index onto their free structure. -/
theorem out_of_range_free_debug_only
    (s : StackAllocator) (f : FreeListAllocator) (b : BitmapAllocator)
    (shadow_s shadow_f : List Nat) (i : Nat)
    (hs : s.capacity ≤ i) (hf : f.capacity ≤ i) (hb : b.capacity ≤ i) :
    s.freeDebug shadow_s i = .error "index out of bounds" ∧
    f.freeDebug shadow_f i = .error "index out of bounds" ∧
    b.freeDebug i = .error "index out of bounds" ∧
    (s.free i).free_stack = i :: s.free_stack ∧
    (f.free i).free_list = i :: f.free_list := by
  refine ⟨?_, ?_, ?_, rfl, rfl⟩
  · unfold StackAllocator.freeDebug
    rw [if_neg (not_lt.mpr hs)]
  · unfold FreeListAllocator.freeDebug
    rw [if_neg (not_lt.mpr hf)]
  · unfold BitmapAllocator.freeDebug
    rw [if_neg (not_lt.mpr hb)]

/-- Witness for the amended C6, at fresh capacity-2 trackers and index 5. -/
theorem out_of_range_free_debug_only_witness :
    (StackAllocator.new 2).freeDebug [3] 5 = .error "index out of bounds" ∧
    (FreeListAllocator.new 2).freeDebug [3] 5 = .error "index out of bounds" ∧
    (BitmapAllocator.new 2).freeDebug 5 = .error "index out of bounds" ∧
    ((StackAllocator.new 2).free 5).free_stack = 5 :: (StackAllocator.new 2).free_stack ∧
    ((FreeListAllocator.new 2).free 5).free_list = 5 :: (FreeListAllocator.new 2).free_list :=
  out_of_range_free_debug_only (StackAllocator.new 2) (FreeListAllocator.new 2)
    (BitmapAllocator.new 2) [3] [3] 5 (by decide) (by decide) (by decide)

theorem GrowingPool.grow_ok_shape (p p1 : GrowingPool) (h : p.grow = .ok p1) :
    p.growth_strategy.compute_growth p.capacity ≠ 0 ∧
    p1 = { p with
      storage := p.storage ++ [p.growth_strategy.compute_growth p.capacity],
      allocator := p.allocator.extend (p.growth_strategy.compute_growth p.capacity),
      capacity := p.capacity + p.growth_strategy.compute_growth p.capacity,
      chunk_boundaries := p.chunk_boundaries ++
        [p.capacity + p.growth_strategy.compute_growth p.capacity] } := by
  by_cases h0 : p.growth_strategy.compute_growth p.capacity = 0
  · have hg : p.grow = .error (.poolExhausted p.capacity
        (p.capacity - p.allocator.available)) := by
      unfold grow
      rw [if_pos h0]
    rw [hg] at h
    cases h
  · refine ⟨h0, ?_⟩
    cases hmax : p.max_capacity with
    | none =>
      have hg : p.grow = .ok { p with
          storage := p.storage ++ [p.growth_strategy.compute_growth p.capacity],
          allocator := p.allocator.extend (p.growth_strategy.compute_growth p.capacity),
          capacity := p.capacity + p.growth_strategy.compute_growth p.capacity,
          chunk_boundaries := p.chunk_boundaries ++
            [p.capacity + p.growth_strategy.compute_growth p.capacity] } := by
        unfold grow
        rw [if_neg h0, hmax]
      rw [hg] at h
      rw [← hmax]
      exact ((Except.ok.injEq _ _).mp h).symm
    | some m =>
      by_cases hover : m < p.capacity + p.growth_strategy.compute_growth p.capacity
      · have hg : p.grow = .error (.maxCapacityExceeded p.capacity
            (p.capacity + p.growth_strategy.compute_growth p.capacity) m) := by
          unfold grow
          rw [if_neg h0, hmax]
          simp only [gt_iff_lt, if_pos hover]
        rw [hg] at h
        cases h
      · have hg : p.grow = .ok { p with
            storage := p.storage ++ [p.growth_strategy.compute_growth p.capacity],
            allocator := p.allocator.extend (p.growth_strategy.compute_growth p.capacity),
            capacity := p.capacity + p.growth_strategy.compute_growth p.capacity,
            chunk_boundaries := p.chunk_boundaries ++
              [p.capacity + p.growth_strategy.compute_growth p.capacity] } := by
          unfold grow
          rw [if_neg h0, hmax]
          simp only [gt_iff_lt, if_neg hover]
        rw [hg] at h
        rw [← hmax]
        exact ((Except.ok.injEq _ _).mp h).symm

theorem GrowingPool.Inv_with_config (capacity : Nat) (hc : 0 < capacity)
    (strategy : GrowthStrategy) (max : Option Nat) :
    (GrowingPool.with_config capacity strategy max).Inv := by
  refine ⟨rfl, ?_, by simp [with_config]⟩
  intro c hc2
  simp only [with_config, List.mem_singleton] at hc2
  subst hc2
  exact hc

theorem GrowingPool.Inv_grow (p p1 : GrowingPool) (hInv : p.Inv) (h : p.grow = .ok p1) :
    p1.Inv := by
  obtain ⟨hb, hpos, hcap⟩ := hInv
  obtain ⟨h0, hp1⟩ := GrowingPool.grow_ok_shape p p1 h
  subst hp1
  refine ⟨?_, ?_, ?_⟩
  · simp only [cumulativeSums_append_singleton, hb, hcap]
  · intro c hc
    rcases List.mem_append.mp hc with hc | hc
    · exact hpos c hc
    · simp only [List.mem_singleton] at hc
      subst hc
      omega
  · simp [hcap]

/-! ## Claim theorems: growing pool chunk layout (C1, C4) -/

/-- C1: growing never moves existing slots. For every growing pool satisfying
the reachable-state invariant, a successful `grow` appends exactly one chunk
and one boundary entry — the old boundary list is a prefix of the new one —
and `compute_chunk_location(i)` is unchanged for every index `i` below the old
capacity. -/
theorem GrowingPool.grow_preserves_chunk_locations (p p1 : GrowingPool)
    (hInv : p.Inv) (hgrow : p.grow = .ok p1) :
    p1.chunk_boundaries = p.chunk_boundaries ++ [p1.capacity] ∧
    p1.storage = p.storage ++ [p1.capacity - p.capacity] ∧
    (∀ i < p.capacity, p1.compute_chunk_location i = p.compute_chunk_location i) := by
  obtain ⟨hb, hpos, hcap⟩ := hInv
  obtain ⟨h0, hp1⟩ := GrowingPool.grow_ok_shape p p1 hgrow
  subst hp1
  set delta := p.growth_strategy.compute_growth p.capacity with hdelta
  refine ⟨rfl, by simp, ?_⟩
  intro i hi
  have hpos2 : ∀ c ∈ p.storage ++ [delta], 0 < c := by
    intro c hc
    rcases List.mem_append.mp hc with hc | hc
    · exact hpos c hc
    · simp only [List.mem_singleton] at hc
      subst hc
      omega
  have hi1 : i < p.storage.sum := by omega
  have hi2 : i < (p.storage ++ [delta]).sum := by
    simp only [List.sum_append, List.sum_singleton]
    omega
  obtain ⟨c, o, hlin, hcomp, _, _, _⟩ := chunkLocation_spec p.storage hpos i hi1
  obtain ⟨c2, o2, hlin2, hcomp2, _, _, _⟩ :=
    chunkLocation_spec (p.storage ++ [delta]) hpos2 i hi2
  have hsame : linearScanLocation (p.storage ++ [delta]) i =
      linearScanLocation p.storage i :=
    linearScanLocation_append _ _ i hi1
  rw [hlin, hlin2] at hsame
  have hco : c2 = c ∧ o2 = o := by
    simp only [Option.some.injEq, Prod.mk.injEq] at hsame
    exact hsame
  have hkey : cumulativeSums (p.storage ++ [delta]) =
      p.chunk_boundaries ++ [p.capacity + delta] := by
    rw [cumulativeSums_append_singleton, hb, hcap]
  show computeChunkLocation (p.chunk_boundaries ++ [p.capacity + delta]) i =
    computeChunkLocation p.chunk_boundaries i
  rw [← hkey, hcomp2, hb, hcomp, hco.1, hco.2]

/-- Witness for C1: a two-chunk pool (initial capacity 2, after one linear-3
growth) grows again; the boundary list gains one entry and the locations of
all five old indices are unchanged. -/
theorem GrowingPool.grow_preserves_chunk_locations_witness :
    GrowingPool.Inv GrowingPool.demoTwoChunk ∧
    GrowingPool.grow GrowingPool.demoTwoChunk = .ok GrowingPool.demoThreeChunk ∧
    GrowingPool.demoThreeChunk.chunk_boundaries =
      GrowingPool.demoTwoChunk.chunk_boundaries ++ [GrowingPool.demoThreeChunk.capacity] ∧
    (∀ i < 5, GrowingPool.demoThreeChunk.compute_chunk_location i =
      GrowingPool.demoTwoChunk.compute_chunk_location i) := by
  have hgrow : GrowingPool.grow GrowingPool.demoTwoChunk = .ok GrowingPool.demoThreeChunk := rfl
  have h := GrowingPool.grow_preserves_chunk_locations _ _ (by decide) hgrow
  exact ⟨by decide, hgrow, h.1, h.2.2⟩

/-- C4: the binary-search chunk lookup agrees with the linear chunk scan used
by `allocate`. For every growing pool satisfying the reachable-state
invariant (boundaries are the cumulative sums of the non-empty chunk lengths)
and every index below the capacity, `compute_chunk_location` returns exactly
the pair the linear scan writes to, which is the unique `(c, o)` with
`o < len(chunk c)` and `index = (sum of lengths of chunks before c) + o`. -/
theorem GrowingPool.compute_chunk_location_eq_linear_scan (p : GrowingPool)
    (hInv : p.Inv) (index : Nat) (hlt : index < p.capacity) :
    ∃ c o, p.compute_chunk_location index = (c, o) ∧
      linearScanLocation p.storage index = some (c, o) ∧
      o < p.storage.getD c 0 ∧
      index = (p.storage.take c).sum + o ∧
      (∀ c2 o2, o2 < p.storage.getD c2 0 → index = (p.storage.take c2).sum + o2 →
        c2 = c ∧ o2 = o) := by
  obtain ⟨hb, hpos, hcap⟩ := hInv
  obtain ⟨c, o, hlin, hcomp, ho, hsum, _⟩ :=
    chunkLocation_spec p.storage hpos index (by omega)
  refine ⟨c, o, ?_, hlin, ho, hsum, ?_⟩
  · show computeChunkLocation p.chunk_boundaries index = (c, o)
    rw [hb]
    exact hcomp
  · intro c2 o2 ho2 hsum2
    exact chunk_location_unique p.storage ho2 ho (by omega)

/-- Witness for C4 at a concrete two-chunk pool and a boundary-straddling
index: index 4 in chunks `[2, 3]` lives at chunk 1, offset 2. -/
theorem GrowingPool.compute_chunk_location_eq_linear_scan_witness :
    GrowingPool.Inv GrowingPool.demoTwoChunkFull ∧
    ∃ c o, GrowingPool.demoTwoChunkFull.compute_chunk_location 4 = (c, o) ∧
      linearScanLocation GrowingPool.demoTwoChunkFull.storage 4 = some (c, o) ∧
      o < GrowingPool.demoTwoChunkFull.storage.getD c 0 ∧
      4 = (GrowingPool.demoTwoChunkFull.storage.take c).sum + o ∧
      (∀ c2 o2, o2 < GrowingPool.demoTwoChunkFull.storage.getD c2 0 →
        4 = (GrowingPool.demoTwoChunkFull.storage.take c2).sum + o2 →
        c2 = c ∧ o2 = o) := by
  refine ⟨by decide, ?_⟩
  exact GrowingPool.compute_chunk_location_eq_linear_scan _ (by decide) 4 (by decide)

/-! ## Claim theorems: growing pool allocate/grow (C2) -/

/-- C2: when `GrowingPool::allocate` finds no free slot, with `c` the current
capacity and `delta = growth_strategy.compute_growth(c)`: if `delta = 0` the
call fails with `PoolExhausted { capacity := c, allocated := c }`; if a
maximum `m` is configured and `c + delta > m` it fails with
`MaxCapacityExceeded { current := c, requested := c + delta, max := m }`; both
error cases leave the pool (hence `capacity()` and `available()`) unchanged;
otherwise the capacity becomes `c + delta` and the retried claim succeeds. -/
theorem GrowingPool.allocate_growth_spec (p : GrowingPool)
    (hempty : p.allocator.free_list = []) :
    (p.growth_strategy.compute_growth p.capacity = 0 →
      p.allocate = (.error (.poolExhausted p.capacity p.capacity), p)) ∧
    (∀ m, p.growth_strategy.compute_growth p.capacity ≠ 0 →
      p.max_capacity = some m →
      m < p.capacity + p.growth_strategy.compute_growth p.capacity →
      p.allocate = (.error (.maxCapacityExceeded p.capacity
        (p.capacity + p.growth_strategy.compute_growth p.capacity) m), p)) ∧
    (p.growth_strategy.compute_growth p.capacity ≠ 0 →
      (∀ m, p.max_capacity = some m →
        p.capacity + p.growth_strategy.compute_growth p.capacity ≤ m) →
      (∃ i, (p.allocate).1 = .ok i) ∧
      ((p.allocate).2).capacity =
        p.capacity + p.growth_strategy.compute_growth p.capacity) := by
  have hna : p.allocator.allocate = (none, p.allocator) := by
    simp [FreeListAllocator.allocate, hempty]
  have hav : p.allocator.available = 0 := by
    simp [FreeListAllocator.available, hempty]
  refine ⟨?_, ?_, ?_⟩
  · intro h0
    have hgrow : p.grow = .error (.poolExhausted p.capacity p.capacity) := by
      unfold grow
      rw [if_pos h0, hav, Nat.sub_zero]
    simp only [GrowingPool.allocate, hna, hgrow]
  · intro m h0 hm hover
    have hgrow : p.grow = .error (.maxCapacityExceeded p.capacity
        (p.capacity + p.growth_strategy.compute_growth p.capacity) m) := by
      unfold grow
      rw [if_neg h0, hm]
      simp only [gt_iff_lt, if_pos hover]
    simp only [GrowingPool.allocate, hna, hgrow]
  · intro h0 hfits
    have hgrow : p.grow = .ok { p with
        storage := p.storage ++ [p.growth_strategy.compute_growth p.capacity],
        allocator := p.allocator.extend (p.growth_strategy.compute_growth p.capacity),
        capacity := p.capacity + p.growth_strategy.compute_growth p.capacity,
        chunk_boundaries := p.chunk_boundaries ++
          [p.capacity + p.growth_strategy.compute_growth p.capacity] } := by
      unfold grow
      rw [if_neg h0]
      cases hmax : p.max_capacity with
      | none => rfl
      | some m =>
        simp only [gt_iff_lt, if_neg (not_lt.mpr (hfits m hmax))]
    have hne : (List.range' p.allocator.capacity
        (p.growth_strategy.compute_growth p.capacity)).reverse ≠ [] := by
      simp only [ne_eq, List.reverse_eq_nil_iff, List.range'_eq_nil]
      exact h0
    obtain ⟨x, xs, hx⟩ := List.exists_cons_of_ne_nil hne
    have hext : (p.allocator.extend (p.growth_strategy.compute_growth p.capacity)).free_list =
        x :: xs := by
      simp [FreeListAllocator.extend, hempty, hx]
    constructor
    · refine ⟨x, ?_⟩
      simp only [GrowingPool.allocate, hgrow, FreeListAllocator.allocate, hempty, hext]
    · simp only [GrowingPool.allocate, hgrow, FreeListAllocator.allocate, hempty, hext]

/-- Witness for C2 at two concrete exhausted pools: a one-slot pool with the
non-growing strategy fails with `PoolExhausted{1, 1}` unchanged, and a
one-slot pool with `Linear { amount := 2 }` grows to capacity 3 and the
retried claim succeeds. -/
theorem GrowingPool.allocate_growth_spec_witness :
    GrowingPool.allocate
        { storage := [1], allocator := { free_list := [], capacity := 1 }, capacity := 1,
          chunk_boundaries := [1], growth_strategy := .none, max_capacity := none } =
      (.error (.poolExhausted 1 1),
        { storage := [1], allocator := { free_list := [], capacity := 1 }, capacity := 1,
          chunk_boundaries := [1], growth_strategy := .none, max_capacity := none }) ∧
    ((∃ i, (GrowingPool.allocate
        { storage := [1], allocator := { free_list := [], capacity := 1 }, capacity := 1,
          chunk_boundaries := [1], growth_strategy := .linear 2, max_capacity := none }).1 =
        .ok i) ∧
      ((GrowingPool.allocate
        { storage := [1], allocator := { free_list := [], capacity := 1 }, capacity := 1,
          chunk_boundaries := [1], growth_strategy := .linear 2, max_capacity := none }).2).capacity = 3) := by
  constructor
  · exact (GrowingPool.allocate_growth_spec _ rfl).1 rfl
  · exact (GrowingPool.allocate_growth_spec _ rfl).2.2 (by decide)
      (fun m hm => by cases hm)

end Fastalloc
